import Mathlib

/-!
# Verification of the gptme-rag indexing/search/watch pipeline

Shallow embedding of the core data model and operations of the gptme-rag
repository (chunk identity assignment, directory indexing, grouped search,
document reconstruction, deletion, and the file watcher's update processing),
together with theorems settling the specification claims about them.

Python-level effects are made explicit: the vector collection is a list of
records, fallible store operations are `Except`-valued, and the process-wide
string hash is an explicit function parameter (it is fixed within a process).
-/

set_option maxHeartbeats 1000000

namespace GptmeRag

/-! ## Identity assignment in Indexer.add_document / add_documents (claim C1)

Embeds the two id-assignment paths of the indexer. The batch path
`Indexer.add_documents` (src/gptme_rag/indexing/indexer.py, lines 104-120):
for each document whose `doc_id` is falsy, `base_id =
str(hash(source_path.absolute()))` when a source path is known
(`str(hash(content))` otherwise), and the assigned id is
`f"{base_id}#chunk{chunk_index}"` for chunks, `base_id` alone otherwise.
The single-document path `Indexer.add_document` (lines 69-81): a falsy-id
document gets `f"{str(hash(content))}-{ts}"` with `ts = timestamp or
int(time.time() * 1000)` — content- and wall-clock-derived, whether or not a
source path is known. -/

namespace AddDocs

/-- Model of the `Document` dataclass as seen by `add_documents`: the fields
that the id-assignment logic reads. -/
structure Document where
  content : String
  source_path : Option String
  doc_id : Option String
  chunk_index : Nat
  is_chunk : Bool
deriving DecidableEq, Repr

/-- Python truthiness test `not doc.doc_id`: true for `None` and `""`. -/
def isFalsyId : Option String → Bool
  | none => true
  | some s => s == ""

/-- The id-assignment step of `add_documents` for one document.
`hashPath`/`hashStr` model the process-fixed Python `hash` on paths and
strings; `absPath` models `Path.absolute()`. -/
def assignDocId (hashPath hashStr : String → Int) (absPath : String → String)
    (doc : Document) : Document :=
  if isFalsyId doc.doc_id then
    let base_id := toString
      (match doc.source_path with
      | some p => hashPath (absPath p)
      | none => hashStr doc.content)
    { doc with
      doc_id := some
        (if doc.is_chunk then base_id ++ "#chunk" ++ toString doc.chunk_index
         else base_id) }
  else doc

/-- The ids under which `add_documents` stores a batch (the `ids` list passed
to `collection.add`), after assignment. -/
def add_documents_ids (hashPath hashStr : String → Int)
    (absPath : String → String) (docs : List Document) : List (Option String) :=
  (docs.map (assignDocId hashPath hashStr absPath)).map (·.doc_id)

/-- The id-assignment step of `add_document`: a falsy-id document gets
`str(hash(content)) ++ "-" ++ str(ts)`, where `ts` is the `timestamp`
argument when truthy (non-None, nonzero) and the wall clock `now`
(`int(time.time() * 1000)`) otherwise. The source path is never consulted. -/
def add_document_assign (hashStr : String → Int) (timestamp : Option Int)
    (now : Int) (doc : Document) : Document :=
  if isFalsyId doc.doc_id then
    let base := toString (hashStr doc.content)
    let ts := match timestamp with
      | none => now
      | some t => if t == 0 then now else t
    { doc with doc_id := some (base ++ "-" ++ toString ts) }
  else doc

/-- The data that determines an assigned id when the source path is known:
everything except the content. -/
def idKey (d : Document) : Option String × Nat × Bool × Option String :=
  (d.source_path, d.chunk_index, d.is_chunk, d.doc_id)

theorem assignDocId_eq_of_idKey (hp hs : String → Int) (ab : String → String)
    (d₁ d₂ : Document) (hkey : idKey d₁ = idKey d₂)
    (hsome : d₁.source_path.isSome = true) :
    (assignDocId hp hs ab d₁).doc_id = (assignDocId hp hs ab d₂).doc_id := by
  obtain ⟨p, hp₁⟩ := Option.isSome_iff_exists.mp hsome
  simp only [idKey, Prod.mk.injEq] at hkey
  obtain ⟨h1, h2, h3, h4⟩ := hkey
  simp only [assignDocId, ← h1, ← h2, ← h3, ← h4, hp₁]
  split
  · simp
  · exact h4

end AddDocs

/-- C1 amended: for the batch ingestion path add_documents (the one
index_directory uses), and within one process (the salted Python hash fixed),
the doc_id assigned to a document with a known source path is a pure function
of the absolute source path and the chunk index, of the form
"{base_id}#chunk{chunk_index}" for chunks with base_id derived only from the
path; hence re-ingesting a file whose chunk structure is unchanged yields
exactly the same list (hence set) of doc_ids, regardless of content. -/
theorem AddDocs.claim_C1_doc_id_stable (hp hs : String → Int)
    (ab : String → String) (docs₁ docs₂ : List AddDocs.Document)
    (hkey : docs₁.map AddDocs.idKey = docs₂.map AddDocs.idKey)
    (hpath : ∀ d ∈ docs₁, d.source_path.isSome = true) :
    AddDocs.add_documents_ids hp hs ab docs₁
      = AddDocs.add_documents_ids hp hs ab docs₂
    ∧ ∀ d ∈ docs₁, d.is_chunk = true → AddDocs.isFalsyId d.doc_id = true →
        ∀ p, d.source_path = some p →
        (AddDocs.assignDocId hp hs ab d).doc_id
          = some (toString (hp (ab p)) ++ "#chunk" ++ toString d.chunk_index) := by
  constructor
  · induction docs₁ generalizing docs₂ with
    | nil =>
      have : docs₂ = [] := by
        cases docs₂ with
        | nil => rfl
        | cons h t => simp at hkey
      simp [this]
    | cons d t ih =>
      cases docs₂ with
      | nil => simp at hkey
      | cons d₂ t₂ =>
        simp only [List.map_cons, List.cons.injEq] at hkey
        have hd : (AddDocs.assignDocId hp hs ab d).doc_id
            = (AddDocs.assignDocId hp hs ab d₂).doc_id :=
          AddDocs.assignDocId_eq_of_idKey hp hs ab d d₂ hkey.1
            (hpath d (by simp))
        have ht := ih t₂ hkey.2 (fun x hx => hpath x (by simp [hx]))
        simpa [AddDocs.add_documents_ids] using And.intro hd ht
  · intro d _ hchunk hfalsy p hp'
    simp [AddDocs.assignDocId, hfalsy, hp', hchunk]

/-- Witness for C1: two single-chunk ingests of the same path with different
contents get the identical doc_id, of the stated form. -/
theorem AddDocs.claim_C1_doc_id_stable_witness :
    AddDocs.add_documents_ids (fun s => (s.length : Int)) (fun _ => 0) id
        [⟨"old content", some "/a.txt", none, 0, true⟩]
      = AddDocs.add_documents_ids (fun s => (s.length : Int)) (fun _ => 0) id
        [⟨"new content!", some "/a.txt", none, 0, true⟩]
    ∧ ∀ d ∈ [(⟨"old content", some "/a.txt", none, 0, true⟩ : AddDocs.Document)],
        d.is_chunk = true → AddDocs.isFalsyId d.doc_id = true →
        ∀ p, d.source_path = some p →
        (AddDocs.assignDocId (fun s => (s.length : Int)) (fun _ => 0) id d).doc_id
          = some (toString ((p.length : Int)) ++ "#chunk" ++ toString d.chunk_index) :=
  AddDocs.claim_C1_doc_id_stable (fun s => (s.length : Int)) (fun _ => 0) id
    [⟨"old content", some "/a.txt", none, 0, true⟩]
    [⟨"new content!", some "/a.txt", none, 0, true⟩]
    (by rfl) (by decide)

/-- C1 counterexample: the other cited add path, add_document, assigns
"{str(hash(content))}-{ts}" to a falsy-id document even though its source
path is known — the id is content-derived (two documents at the same path
and chunk index but different contents get different ids) and wall-clock
dependent (the same document re-ingested at a later time gets a different
id), and it is never of the form "{base_id}#chunk{chunk_index}". -/
theorem AddDocs.claim_C1_counterexample :
    (AddDocs.add_document_assign (fun _ => 7) none 1000
        ⟨"text", some "/a.txt", none, 0, true⟩).doc_id = some "7-1000"
    ∧ (AddDocs.add_document_assign (fun _ => 7) none 2000
        ⟨"text", some "/a.txt", none, 0, true⟩).doc_id = some "7-2000"
    ∧ (some "7-1000" : Option String) ≠ some "7-2000"
    ∧ (⟨"text", some "/a.txt", none, 0, true⟩ : AddDocs.Document).source_path
        = some "/a.txt"
    ∧ (AddDocs.add_document_assign (fun s => (s.length : Int)) none 1000
          ⟨"ab", some "/a.txt", none, 0, true⟩).doc_id
        ≠ (AddDocs.add_document_assign (fun s => (s.length : Int)) none 1000
          ⟨"abcd", some "/a.txt", none, 0, true⟩).doc_id :=
  ⟨rfl, rfl, by decide, rfl, by decide⟩

/-! ## Indexer.delete_document (claim C5)

Embeds `Indexer.delete_document` (src/gptme_rag/indexing/indexer.py, lines
332-356). Phase 1 is `collection.delete(ids=[doc_id])`; phase 2 is
`collection.delete(where={"source": doc_id})`. In the source, phase 2 runs
inside an inner try/except whose handler only logs a warning, and `return
True` follows it; only a phase-1 exception reaches the outer handler that
returns `False`. The two phases are modelled as `Except`-valued functions on
the collection. -/

namespace DeleteDoc

/-- Model of `delete_document`: runs phase 1, and on its success phase 2,
returning the reported success flag and the resulting collection. A phase-2
exception is swallowed (warning log only) and does not change the result
flag. -/
def delete_document {α : Type} (phase1 phase2 : List α → Except String (List α))
    (c : List α) : Bool × List α :=
  match phase1 c with
  | Except.error _ => (false, c)
  | Except.ok c1 =>
    match phase2 c1 with
    | Except.error _ => (true, c1)
    | Except.ok c2 => (true, c2)

end DeleteDoc

/-- C5 counterexample: with a phase 2 that raises, `delete_document` still
returns true — the claim that it returns true only if both phases completed
without exception is false on the code. -/
theorem DeleteDoc.claim_C5_counterexample :
    (DeleteDoc.delete_document (fun (c : List Nat) => Except.ok c)
        (fun _ => Except.error "chunk delete failed") []).fst = true
    ∧ (fun (_ : List Nat) => (Except.error "chunk delete failed" :
        Except String (List Nat))) [] = Except.error "chunk delete failed" :=
  ⟨rfl, rfl⟩

/-- C5 amended: `delete_document` returns false exactly when phase 1 (the
delete by exact id) raises; a phase-2 (delete-by-source) exception is caught,
logged, and still reported as success. -/
theorem DeleteDoc.claim_C5_amended {α : Type}
    (phase1 phase2 : List α → Except String (List α)) (c : List α) :
    (DeleteDoc.delete_document phase1 phase2 c).fst = false
      ↔ ∃ e, phase1 c = Except.error e := by
  unfold DeleteDoc.delete_document
  cases h1 : phase1 c with
  | error e => simp [h1]
  | ok c1 =>
    cases h2 : phase2 c1 with
    | error e => simp [h1, h2]
    | ok c2 => simp [h1, h2]

/-! ## Indexer.search with group_chunks=True (claims C3 and C9)

Embeds the grouping branch of `Indexer.search`
(src/gptme_rag/indexing/indexer.py, lines 191-233): the raw query results
(id, content, metadata, distance, in arrival order) are grouped into the
insertion-ordered dict `doc_groups` keyed by `doc_id.split("#chunk")[0]`;
the first `n_results` groups are kept and for each the chunk of minimum
distance is returned (`min` with a distance key, which keeps the earliest
element on ties). -/

/-- Whether pat is a prefix of l (character lists); executable string
matching shared by the search and indexing models. -/
def hasPrefixCL : List Char → List Char → Bool
  | [], _ => true
  | _ :: _, [] => false
  | p :: ps, c :: cs => p == c && hasPrefixCL ps cs

/-- Python str.endswith, on character lists via reversal. -/
def strEndsWith (s suff : String) : Bool :=
  hasPrefixCL suff.toList.reverse s.toList.reverse

namespace Search

/-- One raw query result: chunk id, content, the chunk_index from its
metadata, and its embedding distance. -/
structure QRec where
  id : String
  content : String
  chunk_index : Nat
  dist : ℚ
deriving DecidableEq, Repr

/-- The characters before the first occurrence of pat (the whole list when
pat does not occur): the first component of Python str.split(pat). -/
def takeUntilSub (pat : List Char) : List Char → List Char
  | [] => []
  | c :: cs => if hasPrefixCL pat (c :: cs) then [] else c :: takeUntilSub pat cs

/-- `doc_id.split("#chunk")[0]`: the base document id of a chunk id. -/
def baseId (s : String) : String :=
  String.mk (takeUntilSub "#chunk".toList s.toList)

/-- The grouping key of a result: `source_id` in the source. -/
def keyOf (r : QRec) : String := baseId r.id

/-- Append record r to the group of key k, creating the group at the end
when the key is new: one step of building the insertion-ordered dict
`doc_groups`. -/
def insertGrouped (k : String) (r : QRec) :
    List (String × List QRec) → List (String × List QRec)
  | [] => [(k, [r])]
  | (k', rs) :: t =>
    if k' == k then (k', rs ++ [r]) :: t else (k', rs) :: insertGrouped k r t

/-- The insertion-ordered `doc_groups` dict built from the results. -/
def groupByKey (l : List QRec) : List (String × List QRec) :=
  l.foldl (fun acc r => insertGrouped (keyOf r) r acc) []

/-- Python `min(source_docs, key=lambda x: x[1])` as a fold: the current best
is replaced only on a strictly smaller distance, so the earliest minimum
wins. -/
def pyMinFold (b : QRec) : List QRec → QRec
  | [] => b
  | x :: xs => pyMinFold (if x.dist < b.dist then x else b) xs

/-- The best (minimum-distance, earliest on ties) chunk of a group. Groups
are nonempty by construction; the empty case is unreachable. -/
def bestOf : List QRec → QRec
  | [] => ⟨"", "", 0, 0⟩
  | x :: xs => pyMinFold x xs

/-- The grouped search result: best chunk of each of the first n_results
groups, in group-insertion order. -/
def search_grouped (results : List QRec) (n_results : Nat) : List QRec :=
  ((groupByKey results).take n_results).map (fun g => bestOf g.2)

/-- Keys of the grouping dict, in insertion order. -/
def keysOf (g : List (String × List QRec)) : List String := g.map Prod.fst

/-- The distinct values of l in order of first occurrence, given an initial
seen set. -/
def firstKeysAux (seen : List String) : List String → List String
  | [] => []
  | k :: t =>
    if seen.contains k then firstKeysAux seen t
    else k :: firstKeysAux (k :: seen) t

/-- The distinct values of l in order of first occurrence. -/
def firstKeys (l : List String) : List String := firstKeysAux [] l

/-- Association lookup in the grouping dict. -/
def findGroup (k : String) : List (String × List QRec) → Option (List QRec)
  | [] => none
  | (k', rs) :: t => if k' == k then some rs else findGroup k t

theorem findGroup_insertGrouped (k k' : String) (r : QRec)
    (acc : List (String × List QRec)) :
    findGroup k (insertGrouped k' r acc)
      = if k' == k then some ((findGroup k acc).getD [] ++ [r])
        else findGroup k acc := by
  induction acc with
  | nil => by_cases h : k' = k <;> simp [insertGrouped, findGroup, h]
  | cons p t ih =>
    obtain ⟨k₀, rs⟩ := p
    by_cases h0 : k₀ = k'
    · subst h0
      by_cases h : k₀ = k <;> simp [insertGrouped, findGroup, h]
    · by_cases h : k₀ = k
      · subst h
        have : ¬(k' = k₀) := fun hh => h0 hh.symm
        simp [insertGrouped, findGroup, h0, this]
      · simp [insertGrouped, findGroup, h0, h, ih]

theorem findGroup_foldl (l : List QRec) :
    ∀ (acc : List (String × List QRec)) (k : String),
    findGroup k (l.foldl (fun a r => insertGrouped (keyOf r) r a) acc)
      = match findGroup k acc, l.filter (fun r => keyOf r == k) with
        | some rs, f => some (rs ++ f)
        | none, [] => none
        | none, f => some f := by
  induction l with
  | nil =>
    intro acc k
    cases h : findGroup k acc <;> simp [h]
  | cons r t ih =>
    intro acc k
    have step : (r :: t).foldl (fun a x => insertGrouped (keyOf x) x a) acc
        = t.foldl (fun a x => insertGrouped (keyOf x) x a)
            (insertGrouped (keyOf r) r acc) := by
      simp [List.foldl_cons]
    rw [step, ih]
    rw [findGroup_insertGrouped]
    by_cases hk : keyOf r = k
    · cases h : findGroup k acc with
      | none => simp [hk, h, List.filter_cons]
      | some rs => simp [hk, h, List.filter_cons]
    · have : ¬(keyOf r == k) = true := by simp [hk]
      cases h : findGroup k acc with
      | none => simp [hk, h, List.filter_cons, this]
      | some rs => simp [hk, h, List.filter_cons, this]

theorem keysOf_insertGrouped (k : String) (r : QRec)
    (acc : List (String × List QRec)) :
    keysOf (insertGrouped k r acc)
      = if (keysOf acc).contains k then keysOf acc else keysOf acc ++ [k] := by
  induction acc with
  | nil => simp [insertGrouped, keysOf]
  | cons p t ih =>
    obtain ⟨k₀, rs⟩ := p
    by_cases h : k₀ = k
    · subst h
      simp [insertGrouped, keysOf, List.contains_cons]
    · have hbeq : (k₀ == k) = false := by simp [h]
      have hbeq2 : (k == k₀) = false := by simp [Ne.symm h]
      simp only [keysOf] at ih ⊢
      have hcc : ((k₀ :: t.map Prod.fst).contains k) = ((t.map Prod.fst).contains k) := by
        simp only [List.contains_cons, hbeq2, Bool.false_or]
      simp only [insertGrouped, hbeq, if_false, List.map_cons, ih, Bool.false_eq_true]
      rw [hcc]
      cases hv : (t.map Prod.fst).contains k <;> simp [hv]

theorem firstKeysAux_congr : ∀ (l s₁ s₂ : List String),
    (∀ x, s₁.contains x = s₂.contains x) →
    firstKeysAux s₁ l = firstKeysAux s₂ l := by
  intro l
  induction l with
  | nil => intro s₁ s₂ _; rfl
  | cons k t ih =>
    intro s₁ s₂ hs
    simp only [firstKeysAux, hs k]
    cases hv : s₂.contains k with
    | true => simp [ih s₁ s₂ hs]
    | false =>
      simp only [Bool.false_eq_true, if_false]
      have : ∀ x, (k :: s₁).contains x = (k :: s₂).contains x := by
        intro x
        simp only [List.contains_cons, hs x]
      simp [ih (k :: s₁) (k :: s₂) this]

theorem keysOf_foldl : ∀ (l : List QRec) (acc : List (String × List QRec)),
    keysOf (l.foldl (fun a r => insertGrouped (keyOf r) r a) acc)
      = keysOf acc ++ firstKeysAux (keysOf acc) (l.map keyOf) := by
  intro l
  induction l with
  | nil => intro acc; simp [firstKeysAux]
  | cons r t ih =>
    intro acc
    simp only [List.foldl_cons, List.map_cons, firstKeysAux]
    rw [ih, keysOf_insertGrouped]
    cases hv : (keysOf acc).contains (keyOf r) with
    | true => simp
    | false =>
      simp only [Bool.false_eq_true, if_false]
      have hcongr : firstKeysAux (keysOf acc ++ [keyOf r]) (t.map keyOf)
          = firstKeysAux (keyOf r :: keysOf acc) (t.map keyOf) := by
        apply firstKeysAux_congr
        intro x
        simp [List.mem_append, or_comm]
      rw [hcongr]
      simp

theorem firstKeysAux_nodup : ∀ (l seen : List String),
    (firstKeysAux seen l).Nodup
    ∧ ∀ x ∈ firstKeysAux seen l, seen.contains x = false := by
  intro l
  induction l with
  | nil => intro seen; simp [firstKeysAux]
  | cons k t ih =>
    intro seen
    simp only [firstKeysAux]
    cases hv : seen.contains k with
    | true => simpa using ih seen
    | false =>
      simp only [Bool.false_eq_true, if_false]
      obtain ⟨hnd, hmem⟩ := ih (k :: seen)
      refine ⟨List.nodup_cons.mpr ⟨?_, hnd⟩, ?_⟩
      · intro hk
        have := hmem k hk
        simp [List.contains_cons] at this
      · intro x hx
        rcases List.mem_cons.mp hx with hx | hx
        · subst hx; exact hv
        · have := hmem x hx
          simp only [List.contains_cons, Bool.or_eq_false_iff] at this
          exact this.2

theorem keysOf_groupByKey (l : List QRec) :
    keysOf (groupByKey l) = firstKeys (l.map keyOf) := by
  have := keysOf_foldl l []
  simpa [groupByKey, keysOf, firstKeys] using this

theorem keysOf_groupByKey_nodup (l : List QRec) :
    (keysOf (groupByKey l)).Nodup := by
  rw [keysOf_groupByKey]
  exact (firstKeysAux_nodup (l.map keyOf) []).1

theorem findGroup_of_mem : ∀ (g : List (String × List QRec)),
    (keysOf g).Nodup → ∀ k rs, (k, rs) ∈ g → findGroup k g = some rs := by
  intro g
  induction g with
  | nil => intro _ k rs h; simp at h
  | cons p t ih =>
    intro hnd k rs hmem
    obtain ⟨k₀, rs₀⟩ := p
    simp only [keysOf, List.map_cons, List.nodup_cons] at hnd
    rcases List.mem_cons.mp hmem with heq | hmem'
    · injection heq with h1 h2
      subst h1; subst h2
      simp [findGroup]
    · by_cases hk : k₀ = k
      · subst hk
        exfalso
        exact hnd.1 (by simpa [keysOf] using List.mem_map_of_mem Prod.fst hmem')
      · have : (k₀ == k) = false := by simp [hk]
        simp only [findGroup, this, Bool.false_eq_true, if_false]
        exact ih hnd.2 k rs hmem'

/-- Membership in the grouping dict characterised: each group of key k holds
exactly the results whose base id is k, in arrival order, and is nonempty. -/
theorem mem_groupByKey (l : List QRec) (k : String) (rs : List QRec)
    (h : (k, rs) ∈ groupByKey l) :
    rs = l.filter (fun r => keyOf r == k) ∧ rs ≠ [] := by
  have hfind : findGroup k (groupByKey l) = some rs :=
    findGroup_of_mem (groupByKey l) (keysOf_groupByKey_nodup l) k rs h
  have hchar := findGroup_foldl l [] k
  simp only [groupByKey] at hfind
  rw [hchar] at hfind
  simp only [findGroup] at hfind
  cases hf : l.filter (fun r => keyOf r == k) with
  | nil => rw [hf] at hfind; simp at hfind
  | cons a as =>
    rw [hf] at hfind
    simp only [Option.some.injEq] at hfind
    exact ⟨hfind.symm, by simp [← hfind]⟩

theorem pyMinFold_mem : ∀ (l : List QRec) (b : QRec), pyMinFold b l ∈ b :: l := by
  intro l
  induction l with
  | nil => intro b; simp [pyMinFold]
  | cons x xs ih =>
    intro b
    simp only [pyMinFold]
    by_cases hx : x.dist < b.dist
    · simp only [hx, if_true]
      rcases List.mem_cons.mp (ih x) with h | h
      · simp [h]
      · simp [List.mem_cons, h]
    · simp only [hx, if_false]
      rcases List.mem_cons.mp (ih b) with h | h
      · simp [h]
      · simp [List.mem_cons, h]

theorem pyMinFold_le : ∀ (l : List QRec) (b : QRec),
    ∀ y ∈ b :: l, (pyMinFold b l).dist ≤ y.dist := by
  intro l
  induction l with
  | nil => intro b y hy; simp at hy; simp [pyMinFold, hy]
  | cons x xs ih =>
    intro b y hy
    simp only [pyMinFold]
    by_cases hx : x.dist < b.dist
    · simp only [hx, if_true]
      rcases List.mem_cons.mp hy with h | h
      · have hle : (pyMinFold x xs).dist ≤ b.dist :=
          le_trans (ih x x (by simp)) (le_of_lt hx)
        rw [h]; exact hle
      · exact ih x y h
    · simp only [hx, if_false]
      rcases List.mem_cons.mp hy with h | h
      · exact ih b y (by simp [h])
      · rcases List.mem_cons.mp h with h' | h'
        · have hle : (pyMinFold b xs).dist ≤ x.dist :=
            le_trans (ih b b (by simp)) (le_of_not_lt hx)
          rw [h']; exact hle
        · exact ih b y (by simp [h'])

theorem pyMinFold_find : ∀ (l : List QRec) (b : QRec),
    (b :: l).find? (fun y => decide (y.dist ≤ (pyMinFold b l).dist))
      = some (pyMinFold b l) := by
  intro l
  induction l with
  | nil => intro b; simp [pyMinFold]
  | cons x xs ih =>
    intro b
    simp only [pyMinFold]
    by_cases hx : x.dist < b.dist
    · simp only [hx, if_true]
      have hrle : (pyMinFold x xs).dist ≤ x.dist := pyMinFold_le xs x x (by simp)
      have hpb : ¬ (b.dist ≤ (pyMinFold x xs).dist) := by
        intro hle
        exact absurd (lt_of_le_of_lt (le_trans hle hrle) hx) (lt_irrefl _)
      rw [List.find?_cons_of_neg _ (by simpa using hpb)]
      exact ih x
    · simp only [hx, if_false]
      by_cases hpb : b.dist ≤ (pyMinFold b xs).dist
      · have : pyMinFold b xs = b := by
          have := ih b
          rw [List.find?_cons_of_pos _ (by simpa using hpb)] at this
          injection this with h
          exact h.symm
        rw [this] at hpb ⊢
        rw [List.find?_cons_of_pos _ (by simp [hpb])]
      · have hxs : xs.find? (fun y => decide (y.dist ≤ (pyMinFold b xs).dist))
            = some (pyMinFold b xs) := by
          have := ih b
          rw [List.find?_cons_of_neg _ (by simpa using hpb)] at this
          exact this
        rw [List.find?_cons_of_neg _ (by simpa using hpb)]
        have hrb : (pyMinFold b xs).dist ≤ b.dist := pyMinFold_le xs b b (by simp)
        have hpx : ¬ (x.dist ≤ (pyMinFold b xs).dist) := by
          intro hle
          exact hpb (le_trans (le_of_not_lt hx) hle)
        rw [List.find?_cons_of_neg _ (by simpa using hpx)]
        exact hxs

theorem bestOf_mem (g : List QRec) (hg : g ≠ []) : bestOf g ∈ g := by
  cases g with
  | nil => exact absurd rfl hg
  | cons x xs => exact pyMinFold_mem xs x

theorem bestOf_le (g : List QRec) (hg : g ≠ []) :
    ∀ y ∈ g, (bestOf g).dist ≤ y.dist := by
  cases g with
  | nil => exact absurd rfl hg
  | cons x xs => exact pyMinFold_le xs x

theorem bestOf_find (g : List QRec) (hg : g ≠ []) :
    g.find? (fun y => decide (y.dist ≤ (bestOf g).dist)) = some (bestOf g) := by
  cases g with
  | nil => exact absurd rfl hg
  | cons x xs => exact pyMinFold_find xs x

theorem bestOf_group (results : List QRec) (g : String × List QRec)
    (hg : g ∈ groupByKey results) :
    bestOf g.2 ∈ results ∧ keyOf (bestOf g.2) = g.1
    ∧ ∀ x ∈ results, keyOf x = g.1 → (bestOf g.2).dist ≤ x.dist := by
  obtain ⟨hfil, hne⟩ := mem_groupByKey results g.1 g.2 (by simpa using hg)
  have hb := bestOf_mem g.2 hne
  have hmemf : bestOf g.2 ∈ results.filter (fun r => keyOf r == g.1) := hfil ▸ hb
  obtain ⟨hmem, hkey⟩ := List.mem_filter.mp hmemf
  refine ⟨hmem, by simpa using hkey, ?_⟩
  intro x hx hkx
  have hxf : x ∈ g.2 := by
    rw [hfil]; exact List.mem_filter.mpr ⟨hx, by simp [hkx]⟩
  exact bestOf_le g.2 hne x hxf

end Search

/-- C3: with group_chunks=true, search returns at most n_results documents,
no two of which share a base_id; each returned document belongs to the raw
results and has minimal distance among all raw results of its base_id; and
the returned base_ids are the first n_results distinct base_ids in arrival
order (group-insertion order). -/
theorem Search.claim_C3_grouped_search (results : List Search.QRec) (n : Nat) :
    (Search.search_grouped results n).length ≤ n
    ∧ List.Pairwise (fun a b => Search.baseId a.id ≠ Search.baseId b.id)
        (Search.search_grouped results n)
    ∧ (∀ r ∈ Search.search_grouped results n, r ∈ results ∧
        ∀ x ∈ results, Search.baseId x.id = Search.baseId r.id → r.dist ≤ x.dist)
    ∧ (Search.search_grouped results n).map (fun r => Search.baseId r.id)
        = (Search.firstKeys (results.map (fun r => Search.baseId r.id))).take n := by
  have hkeys : (Search.search_grouped results n).map (fun r => Search.baseId r.id)
      = (Search.keysOf (Search.groupByKey results)).take n := by
    simp only [Search.search_grouped, List.map_map]
    have hcongr : ∀ g ∈ (Search.groupByKey results).take n,
        ((fun r => Search.baseId r.id) ∘ fun g => Search.bestOf g.2) g = Prod.fst g := by
      intro g hgt
      have hg := List.mem_of_mem_take hgt
      exact (Search.bestOf_group results g hg).2.1
    rw [List.map_congr_left hcongr]
    simp [Search.keysOf, List.map_take]
  refine ⟨?_, ?_, ?_, ?_⟩
  · simp only [Search.search_grouped, List.length_map]
    exact le_trans (List.length_take_le n _) (le_refl n)
  · have hnd : ((Search.search_grouped results n).map
        (fun r => Search.baseId r.id)).Nodup := by
      rw [hkeys]
      exact (Search.keysOf_groupByKey_nodup results).sublist (List.take_sublist n _)
    exact List.pairwise_map.mp hnd
  · intro r hr
    simp only [Search.search_grouped, List.mem_map] at hr
    obtain ⟨g, hgt, hbest⟩ := hr
    have hg := List.mem_of_mem_take hgt
    obtain ⟨hmem, hkey, hmin⟩ := Search.bestOf_group results g hg
    subst hbest
    exact ⟨hmem, fun x hx hkx => hmin x hx (by rw [← hkey]; exact hkx)⟩
  · rw [hkeys, Search.keysOf_groupByKey]
    rfl

/-- Concrete query results for the tie-breaking counterexample: two chunks of
the same document P, equal distance, the higher chunk_index arriving first. -/
def Search.res9 : List Search.QRec :=
  [⟨"P#chunk5", "chunk five", 5, 1⟩, ⟨"P#chunk2", "chunk two", 2, 1⟩]

/-- C9 counterexample: with two chunks of the same document tied on the
minimum distance, grouped search returns the one that arrived first
(chunk_index 5), not the one with the smaller chunk_index (2). -/
theorem Search.claim_C9_counterexample :
    Search.search_grouped Search.res9 1
        = [⟨"P#chunk5", "chunk five", 5, 1⟩]
    ∧ (⟨"P#chunk2", "chunk two", 2, 1⟩ : Search.QRec) ∈ Search.res9
    ∧ Search.baseId "P#chunk2" = Search.baseId "P#chunk5"
    ∧ ((⟨"P#chunk2", "chunk two", 2, 1⟩ : Search.QRec)).dist
        = ((⟨"P#chunk5", "chunk five", 5, 1⟩ : Search.QRec)).dist
    ∧ (2 : Nat) < 5 := by
  refine ⟨by decide, by decide, by decide, by decide, by decide⟩

/-- C9 amended: ties on minimum distance within a group are broken by arrival
order in the underlying result list, not by chunk_index: the chunk returned
for a group is the first chunk of that group (in arrival order) attaining the
group's minimum distance. -/
theorem Search.claim_C9_amended (results : List Search.QRec) (n : Nat) :
    ∀ r ∈ Search.search_grouped results n,
      (results.filter (fun x => Search.baseId x.id == Search.baseId r.id)).find?
        (fun x => decide (x.dist ≤ r.dist)) = some r := by
  intro r hr
  simp only [Search.search_grouped, List.mem_map] at hr
  obtain ⟨g, hgt, hbest⟩ := hr
  have hg := List.mem_of_mem_take hgt
  obtain ⟨hfil, hne⟩ := Search.mem_groupByKey results g.1 g.2 (by simpa using hg)
  have hkey : Search.keyOf (Search.bestOf g.2) = g.1 :=
    (Search.bestOf_group results g hg).2.1
  subst hbest
  have hkey' : Search.baseId (Search.bestOf g.2).id = g.1 := hkey
  have hfeq : results.filter
        (fun x => Search.baseId x.id == Search.baseId (Search.bestOf g.2).id)
      = results.filter (fun r => Search.keyOf r == g.1) := by
    apply List.filter_congr
    intro x _
    simp [Search.keyOf, hkey']
  rw [hfeq, ← hfil]
  exact Search.bestOf_find g.2 hne

/-- Witness for the amended C9 at concrete query results. -/
theorem Search.claim_C9_amended_witness :
    (Search.res9.filter (fun x => Search.baseId x.id
        == Search.baseId (Search.QRec.mk "P#chunk5" "chunk five" 5 1).id)).find?
      (fun x => decide (x.dist ≤ (Search.QRec.mk "P#chunk5" "chunk five" 5 1).dist))
      = some (Search.QRec.mk "P#chunk5" "chunk five" 5 1) :=
  Search.claim_C9_amended Search.res9 1
    (Search.QRec.mk "P#chunk5" "chunk five" 5 1) (by decide)

/-! ## Indexer.get_document_chunks / reconstruct_document (claim C8)

Embeds `get_document_chunks` (src/gptme_rag/indexing/indexer.py, lines
235-257: `collection.get(where={"source": doc_id})`, then a stable sort by
`chunk_index or 0`) and `reconstruct_document` (lines 259-293: raises when no
chunks were found — the spec taxonomy's NotFoundError, a Python ValueError in
the source — otherwise joins the chunk contents with newline). -/

namespace Reconstruct

/-- A stored chunk record: id, content, and the metadata fields the
reconstruction path reads. -/
structure ChunkRec where
  id : String
  content : String
  source : String
  chunk_index : Option Nat
deriving DecidableEq, Repr

/-- The sort key `x.chunk_index or 0`. -/
def sortKey (r : ChunkRec) : Nat := r.chunk_index.getD 0

/-- Stable insertion of r after every element of no greater key. -/
def insertSorted (r : ChunkRec) : List ChunkRec → List ChunkRec
  | [] => [r]
  | x :: xs =>
    if sortKey x ≤ sortKey r then x :: insertSorted r xs else r :: x :: xs

/-- Stable ascending sort by chunk index: `chunks.sort(key=...)`. -/
def sortByChunkIndex (l : List ChunkRec) : List ChunkRec :=
  l.foldl (fun acc x => insertSorted x acc) []

/-- `get_document_chunks`: all records whose source metadata equals the base
id, sorted by chunk index. -/
def get_document_chunks (collection : List ChunkRec) (doc_id : String) :
    List ChunkRec :=
  sortByChunkIndex (collection.filter (fun r => r.source == doc_id))

/-- `reconstruct_document`, restricted to the reconstructed content: raises
when no chunks exist, else the chunk contents joined by newline. -/
def reconstruct_document (collection : List ChunkRec) (doc_id : String) :
    Except String String :=
  match get_document_chunks collection doc_id with
  | [] => Except.error ("No chunks found for document " ++ doc_id)
  | chunks => Except.ok (String.intercalate "\n" (chunks.map (·.content)))

theorem insertSorted_perm (r : ChunkRec) (l : List ChunkRec) :
    (insertSorted r l).Perm (r :: l) := by
  induction l with
  | nil => simp [insertSorted]
  | cons x xs ih =>
    simp only [insertSorted]
    by_cases h : sortKey x ≤ sortKey r
    · simp only [h, if_true]
      exact ((ih.cons x).trans (List.Perm.swap r x xs))
    · simp [h]

theorem insertSorted_sorted (r : ChunkRec) (l : List ChunkRec)
    (hl : List.Pairwise (fun a b => sortKey a ≤ sortKey b) l) :
    List.Pairwise (fun a b => sortKey a ≤ sortKey b) (insertSorted r l) := by
  induction l with
  | nil => simp [insertSorted]
  | cons x xs ih =>
    simp only [insertSorted]
    obtain ⟨hx, hxs⟩ := List.pairwise_cons.mp hl
    by_cases h : sortKey x ≤ sortKey r
    · simp only [h, if_true]
      refine List.pairwise_cons.mpr ⟨?_, ih hxs⟩
      intro y hy
      have hy2 : y ∈ r :: xs := (insertSorted_perm r xs).mem_iff.mp hy
      rcases List.mem_cons.mp hy2 with hy' | hy'
      · subst hy'; exact h
      · exact hx y hy'
    · simp only [h, if_false]
      refine List.pairwise_cons.mpr ⟨?_, hl⟩
      intro y hy
      rcases List.mem_cons.mp hy with hy' | hy'
      · subst hy'; exact le_of_not_le h
      · exact le_trans (le_of_not_le h) (hx y hy')

theorem sortByChunkIndex_perm_aux :
    ∀ (l acc : List ChunkRec),
    (l.foldl (fun acc x => insertSorted x acc) acc).Perm (acc ++ l) := by
  intro l
  induction l with
  | nil => intro acc; simp
  | cons x t ih =>
    intro acc
    simp only [List.foldl_cons]
    refine (ih (insertSorted x acc)).trans ?_
    have h1 : (insertSorted x acc ++ t).Perm ((x :: acc) ++ t) :=
      (insertSorted_perm x acc).append_right t
    refine h1.trans ?_
    simp only [List.cons_append]
    exact List.perm_middle.symm

theorem sortByChunkIndex_perm (l : List ChunkRec) :
    (sortByChunkIndex l).Perm l := by
  simpa using sortByChunkIndex_perm_aux l []

theorem sortByChunkIndex_sorted (l : List ChunkRec) :
    List.Pairwise (fun a b => sortKey a ≤ sortKey b) (sortByChunkIndex l) := by
  suffices h : ∀ (l acc : List ChunkRec),
      List.Pairwise (fun a b => sortKey a ≤ sortKey b) acc →
      List.Pairwise (fun a b => sortKey a ≤ sortKey b)
        (l.foldl (fun acc x => insertSorted x acc) acc) from
    h l [] (by simp)
  intro l
  induction l with
  | nil => intro acc hacc; simpa using hacc
  | cons x t ih =>
    intro acc hacc
    simp only [List.foldl_cons]
    exact ih (insertSorted x acc) (insertSorted_sorted x acc hacc)

end Reconstruct

/-- C8: reconstruct_document fails (the spec taxonomy's NotFoundError — a
ValueError in the Python source) exactly when the collection has no record
whose source equals the base id; when chunks exist, the reconstructed content
is the chunk contents in ascending chunk_index (stably sorted, missing
indices counting as 0) joined by newline. -/
theorem Reconstruct.claim_C8_reconstruct (c : List Reconstruct.ChunkRec)
    (doc_id : String) :
    ((∃ e, Reconstruct.reconstruct_document c doc_id = Except.error e)
        ↔ c.filter (fun r => r.source == doc_id) = [])
    ∧ ∀ content, Reconstruct.reconstruct_document c doc_id = Except.ok content →
        ∃ chunks : List Reconstruct.ChunkRec,
          chunks.Perm (c.filter (fun r => r.source == doc_id))
          ∧ List.Pairwise
              (fun a b => a.chunk_index.getD 0 ≤ b.chunk_index.getD 0) chunks
          ∧ content = String.intercalate "\n" (chunks.map (fun r => r.content)) := by
  have hperm : (Reconstruct.get_document_chunks c doc_id).Perm
      (c.filter (fun r => r.source == doc_id)) :=
    Reconstruct.sortByChunkIndex_perm _
  constructor
  · constructor
    · rintro ⟨e, he⟩
      cases hg : Reconstruct.get_document_chunks c doc_id with
      | nil => exact (hg ▸ hperm).symm.eq_nil ▸ rfl
      | cons a t =>
        simp only [Reconstruct.reconstruct_document, hg] at he
        exact Except.noConfusion he
    · intro hf
      refine ⟨"No chunks found for document " ++ doc_id, ?_⟩
      have hg : Reconstruct.get_document_chunks c doc_id = [] := by
        simp [Reconstruct.get_document_chunks, hf, Reconstruct.sortByChunkIndex]
      simp [Reconstruct.reconstruct_document, hg]
  · intro content hok
    cases hg : Reconstruct.get_document_chunks c doc_id with
    | nil =>
      simp only [Reconstruct.reconstruct_document, hg] at hok
      exact Except.noConfusion hok
    | cons a t =>
      simp only [Reconstruct.reconstruct_document, hg, Except.ok.injEq] at hok
      refine ⟨a :: t, hg ▸ hperm, ?_, hok.symm⟩
      have := Reconstruct.sortByChunkIndex_sorted
        (c.filter (fun r => r.source == doc_id))
      rw [show Reconstruct.sortByChunkIndex
          (c.filter (fun r => r.source == doc_id))
        = Reconstruct.get_document_chunks c doc_id from rfl, hg] at this
      exact this

/-- A concrete collection for the C8 witness: document D stored as two
out-of-order chunks plus an unrelated record. -/
def Reconstruct.demoCollection : List Reconstruct.ChunkRec :=
  [⟨"D#chunk1", "B", "D", some 1⟩, ⟨"D#chunk0", "A", "D", some 0⟩,
   ⟨"X", "Z", "X", none⟩]

/-- Witness for C8: reconstructing document D of the demo collection
succeeds with content "A\nB". -/
theorem Reconstruct.claim_C8_reconstruct_witness :
    ∃ chunks : List Reconstruct.ChunkRec,
      chunks.Perm (Reconstruct.demoCollection.filter (fun r => r.source == "D"))
      ∧ List.Pairwise
          (fun a b => a.chunk_index.getD 0 ≤ b.chunk_index.getD 0) chunks
      ∧ "A\nB" = String.intercalate "\n" (chunks.map (fun r => r.content)) :=
  (Reconstruct.claim_C8_reconstruct Reconstruct.demoCollection "D").2
    "A\nB" (by rfl)

/-! ## The document chunker (claim C4)

The module gptme_rag/indexing/document_processor.py (class DocumentProcessor)
is not part of the source snapshot — only its callers and tests are — so the
chunker is modelled from the spec, section 4.2. -/

namespace Chunker

/-- Modelled from the spec: the sliding-window loop of
DocumentProcessor.process_text (§4.2) — emit tokens[i : i+chunk_size], advance
i by the stride chunk_size - chunk_overlap, and stop when i + chunk_size ≥
len(tokens), the final chunk taking all remaining tokens. Phrased on the
remaining token list; the fuel argument only bounds the recursion and is
immaterial once it is at least the token count. -/
def chunkGo {α : Type} (chunk_size stride : Nat) : Nat → List α → List (List α)
  | 0, rest => [rest]
  | fuel + 1, rest =>
    if chunk_size < rest.length then
      rest.take chunk_size :: chunkGo chunk_size stride fuel (rest.drop stride)
    else [rest]

/-- Modelled from the spec: DocumentProcessor.process_text on an already
tokenised input (§4.2) — empty input yields no chunks, otherwise the sliding
window runs from the start. -/
def process_text {α : Type} (chunk_size chunk_overlap : Nat)
    (tokens : List α) : List (List α) :=
  if tokens.isEmpty then []
  else chunkGo chunk_size (chunk_size - chunk_overlap) tokens.length tokens

theorem chunkGo_count {α : Type} (chunk_size chunk_overlap : Nat)
    (h : chunk_overlap < chunk_size) :
    ∀ (fuel : Nat) (rest : List α), rest.length ≤ fuel → rest ≠ [] →
      ((chunk_overlap < rest.length →
        ((chunkGo chunk_size (chunk_size - chunk_overlap) fuel rest).length : ℤ)
          = ⌈((rest.length : ℚ) - chunk_overlap)
              / ((chunk_size : ℚ) - chunk_overlap)⌉)
      ∧ (rest.length ≤ chunk_overlap →
        (chunkGo chunk_size (chunk_size - chunk_overlap) fuel rest).length = 1)) := by
  have hq : ((chunk_size : ℚ) - chunk_overlap) > 0 := by
    have : (chunk_overlap : ℚ) < chunk_size := by exact_mod_cast h
    linarith
  intro fuel
  induction fuel with
  | zero =>
    intro rest hlen hne
    exact absurd (List.length_eq_zero.mp (Nat.le_zero.mp hlen)) hne
  | succ fuel ih =>
    intro rest hlen hne
    by_cases hc : chunk_size < rest.length
    · have hrest' : (rest.drop (chunk_size - chunk_overlap)).length
          = rest.length - (chunk_size - chunk_overlap) := by simp
      have hlen' : (rest.drop (chunk_size - chunk_overlap)).length ≤ fuel := by
        rw [hrest']; omega
      have hne' : rest.drop (chunk_size - chunk_overlap) ≠ [] := by
        apply List.ne_nil_of_length_pos
        rw [hrest']; omega
      have hov' : chunk_overlap < (rest.drop (chunk_size - chunk_overlap)).length := by
        rw [hrest']; omega
      have hc' := (ih (rest.drop (chunk_size - chunk_overlap)) hlen' hne').1 hov'
      constructor
      · intro _
        simp only [chunkGo, hc, if_true, List.length_cons]
        rw [hrest'] at hc'
        have hcast : ((rest.length - (chunk_size - chunk_overlap) : Nat) : ℚ)
            = (rest.length : ℚ) - ((chunk_size : ℚ) - chunk_overlap) := by
          have hle : chunk_size - chunk_overlap ≤ rest.length := by omega
          rw [Nat.cast_sub hle, Nat.cast_sub (le_of_lt h)]
        rw [hcast] at hc'
        have hdiv : ((rest.length : ℚ) - ((chunk_size : ℚ) - chunk_overlap)
              - chunk_overlap) / ((chunk_size : ℚ) - chunk_overlap)
            = ((rest.length : ℚ) - chunk_overlap)
                / ((chunk_size : ℚ) - chunk_overlap) - 1 := by
          field_simp
          ring
        rw [show (rest.length : ℚ) - ((chunk_size : ℚ) - chunk_overlap)
              - chunk_overlap
            = (rest.length : ℚ) - chunk_overlap
              - ((chunk_size : ℚ) - chunk_overlap) from by ring] at hc'
        rw [show ((rest.length : ℚ) - chunk_overlap
              - ((chunk_size : ℚ) - chunk_overlap))
              / ((chunk_size : ℚ) - chunk_overlap)
            = ((rest.length : ℚ) - chunk_overlap)
                / ((chunk_size : ℚ) - chunk_overlap) - 1 from by
          field_simp] at hc'
        rw [Int.ceil_sub_one] at hc'
        push_cast
        omega
      · intro hle
        omega
    · have hcount :
          (chunkGo chunk_size (chunk_size - chunk_overlap) (fuel + 1) rest).length
            = 1 := by
        simp [chunkGo, hc]
      refine ⟨?_, fun _ => hcount⟩
      intro hov
      rw [hcount]
      symm
      rw [Int.ceil_eq_iff]
      constructor
      · push_cast
        have hpos : (0 : ℚ) < ((rest.length : ℚ) - chunk_overlap)
            / ((chunk_size : ℚ) - chunk_overlap) := by
          apply div_pos
          · have : (chunk_overlap : ℚ) < rest.length := by exact_mod_cast hov
            linarith
          · exact hq
        linarith
      · push_cast
        rw [div_le_one hq]
        have : (rest.length : ℚ) ≤ chunk_size := by
          exact_mod_cast Nat.le_of_not_lt hc
        linarith

theorem chunkGo_ne_nil {α : Type} (chunk_size stride : Nat)
    (fuel : Nat) (rest : List α) :
    chunkGo chunk_size stride fuel rest ≠ [] := by
  cases fuel with
  | zero => simp [chunkGo]
  | succ fuel =>
    by_cases hc : chunk_size < rest.length <;> simp [chunkGo, hc]

theorem getLast?_cons_of_ne_nil {α : Type} (a : α) (l : List α) (hl : l ≠ []) :
    (a :: l).getLast? = l.getLast? := by
  cases l with
  | nil => exact absurd rfl hl
  | cons b t => simp [List.getLast?_cons_cons]

theorem chunkGo_last {α : Type} (chunk_size stride : Nat)
    (hss : stride ≤ chunk_size) :
    ∀ (fuel : Nat) (rest : List α), rest ≠ [] →
      ∃ last, (chunkGo chunk_size stride fuel rest).getLast? = some last
        ∧ last.IsSuffix rest ∧ last ≠ [] := by
  intro fuel
  induction fuel with
  | zero => intro rest hne; exact ⟨rest, rfl, List.suffix_refl rest, hne⟩
  | succ fuel ih =>
    intro rest hne
    by_cases hc : chunk_size < rest.length
    · have hne' : rest.drop stride ≠ [] := by
        apply List.ne_nil_of_length_pos
        simp only [List.length_drop]
        omega
      obtain ⟨last, hl, hsuf, hlast⟩ := ih (rest.drop stride) hne'
      refine ⟨last, ?_, hsuf.trans (List.drop_suffix stride rest), hlast⟩
      simp only [chunkGo, hc, if_true]
      rw [getLast?_cons_of_ne_nil _ _ (chunkGo_ne_nil chunk_size stride fuel _)]
      exact hl
    · exact ⟨rest, by simp [chunkGo, hc], List.suffix_refl rest, hne⟩

end Chunker

/-- C4 counterexample: with chunk_size=10, chunk_overlap=5 and a 3-token
input, the chunker emits one chunk, but the claimed formula
ceil((N - overlap)/(size - overlap)) gives 0. -/
theorem Chunker.claim_C4_counterexample :
    (Chunker.process_text 10 5 [0, 1, 2]).length = 1
    ∧ ⌈((([0, 1, 2] : List Nat).length : ℚ) - 5) / ((10 : ℚ) - 5)⌉ = 0
    ∧ (1 : ℤ) ≠ 0 := by
  refine ⟨rfl, ?_, by decide⟩
  norm_num

/-- C4 amended: for chunk_overlap < chunk_size the chunker terminates and
emits ceil((N - overlap)/(size - overlap)) chunks whenever N > overlap; an
empty input yields no chunks and an input of 0 < N ≤ overlap tokens yields
one chunk (where the claimed formula would give 0); the final chunk is a
nonempty suffix of the input containing all remaining tokens. -/
theorem Chunker.claim_C4_amended {α : Type} (chunk_size chunk_overlap : Nat)
    (h : chunk_overlap < chunk_size) (tokens : List α) :
    (tokens = [] → Chunker.process_text chunk_size chunk_overlap tokens = [])
    ∧ (tokens ≠ [] → tokens.length ≤ chunk_overlap →
        (Chunker.process_text chunk_size chunk_overlap tokens).length = 1)
    ∧ (chunk_overlap < tokens.length →
        ((Chunker.process_text chunk_size chunk_overlap tokens).length : ℤ)
          = ⌈((tokens.length : ℚ) - chunk_overlap)
              / ((chunk_size : ℚ) - chunk_overlap)⌉)
    ∧ (tokens ≠ [] →
        ∃ last, (Chunker.process_text chunk_size chunk_overlap tokens).getLast?
            = some last
          ∧ last.IsSuffix tokens ∧ last ≠ []) := by
  refine ⟨?_, ?_, ?_, ?_⟩
  · intro he
    simp [Chunker.process_text, he]
  · intro hne hle
    have := (Chunker.chunkGo_count chunk_size chunk_overlap h
      tokens.length tokens (le_refl _) hne).2 hle
    simpa [Chunker.process_text, List.isEmpty_iff, hne] using this
  · intro hov
    have hne : tokens ≠ [] := by
      intro he; rw [he] at hov; simp at hov
    have := (Chunker.chunkGo_count chunk_size chunk_overlap h
      tokens.length tokens (le_refl _) hne).1 hov
    simpa [Chunker.process_text, List.isEmpty_iff, hne] using this
  · intro hne
    have := Chunker.chunkGo_last chunk_size (chunk_size - chunk_overlap)
      (Nat.sub_le _ _) tokens.length tokens hne
    simpa [Chunker.process_text, List.isEmpty_iff, hne] using this

/-- Witness for the amended C4: chunk_size=3, chunk_overlap=1 on a 5-token
input gives ceil((5-1)/(3-1)) = 2 chunks. -/
theorem Chunker.claim_C4_amended_witness :
    ((Chunker.process_text 3 1 ([0, 1, 2, 3, 4] : List Nat)).length : ℤ)
      = ⌈((([0, 1, 2, 3, 4] : List Nat).length : ℚ) - 1) / ((3 : ℚ) - 1)⌉ :=
  (Chunker.claim_C4_amended 3 1 (by decide) [0, 1, 2, 3, 4]).2.2.1 (by decide)

/-! ## Indexer.index_directory and the CLI index verb (claim C2)

Embeds `Indexer.index_directory` (src/gptme_rag/indexing/indexer.py, lines
132-170): glob the directory, keep regular files not ending in .sqlite3/.db,
chunk every kept file, and add the chunks in batches of 100 — the function
reads no collection state and performs no modification-time comparison. The
incremental skip lives in the CLI `index` command (src/gptme_rag/cli.py,
lines 225-309), which is embedded separately below. -/

namespace IndexDir

/-- A file of the directory tree as `index_directory` sees it: its path, the
`is_file` test, its name (for the suffix exclusions), and the chunk contents
that `Document.from_file` yields for it. -/
structure SrcFile where
  path : String
  is_file : Bool
  name : String
  chunks : List String
deriving DecidableEq, Repr

/-- The valid-file filter of `index_directory`. -/
def validFile (f : SrcFile) : Bool :=
  f.is_file && !(strEndsWith f.name ".sqlite3") && !(strEndsWith f.name ".db")

/-- Split l into consecutive batches of bs (the last possibly shorter); the
fuel is l.length and only bounds the recursion. -/
def toBatchesAux {α : Type} (bs : Nat) : Nat → List α → List (List α)
  | 0, _ => []
  | _ + 1, [] => []
  | fuel + 1, x :: xs =>
    (x :: xs).take bs :: toBatchesAux bs fuel ((x :: xs).drop bs)

/-- Consecutive batches of size bs. -/
def toBatches {α : Type} (bs : Nat) (l : List α) : List (List α) :=
  toBatchesAux bs l.length l

/-- `index_directory`: the list of `collection.add` batches it performs. One
entry per add call against the VectorCollection. -/
def index_directory (files : List SrcFile) : List (List String) :=
  toBatches 100 (((files.filter validFile).map (fun f => f.chunks)).flatten)

/-- A document collected by the CLI index verb: its absolute source path and
the file's current mtime (seconds). -/
structure CollectedDoc where
  source : String
  mtime : ℚ
deriving DecidableEq, Repr

/-- Python round(x, 6): rounding to microseconds (the tie behaviour of
round-half-even is immaterial to the theorems below, which only use that
equal inputs round equally and that rounding is monotone). -/
def round6 (q : ℚ) : ℚ := (⌊q * 1000000 + 1 / 2⌋ : ℚ) / 1000000

/-- The new-or-modified filter of the CLI index verb: keep a document when
its source is not in the index, or its rounded mtime exceeds the rounded
stored one. -/
def cliFilter (existing : List (String × ℚ)) (docs : List CollectedDoc) :
    List CollectedDoc :=
  docs.filter (fun d =>
    match existing.lookup d.source with
    | none => true
    | some stored => decide (round6 stored < round6 d.mtime))

/-- The number of add calls the CLI index verb performs: none when nothing is
new or modified (the command returns early), else one per batch of 100. -/
def cli_index_add_calls (existing : List (String × ℚ))
    (docs : List CollectedDoc) : Nat :=
  let all_documents := cliFilter existing docs
  if all_documents.isEmpty then 0 else (toBatches 100 all_documents).length

/-- A one-file tree whose single file is already indexed and unchanged. -/
def unchangedTree : List SrcFile :=
  [⟨"/docs/a.txt", true, "a.txt", ["chunk content"]⟩]

end IndexDir

/-- C2 counterexample: `index_directory` on a tree with one valid, unchanged
file performs one add call, not zero — it takes no account of the existing
collection or of modification times (its input is the tree alone), so a
re-run over an unchanged tree repeats the same nonzero add calls. -/
theorem IndexDir.claim_C2_counterexample :
    (IndexDir.index_directory IndexDir.unchangedTree).length = 1
    ∧ IndexDir.index_directory IndexDir.unchangedTree = [["chunk content"]]
    ∧ (1 : Nat) ≠ 0 :=
  ⟨rfl, rfl, by decide⟩

/-- C2 amended: the zero-adds-on-unchanged-tree property holds of the CLI
index verb, not of `index_directory`: when every collected document's source
is already indexed and no mtime has advanced (rounded to microseconds), the
CLI performs zero add calls. -/
theorem IndexDir.claim_C2_amended (existing : List (String × ℚ))
    (docs : List IndexDir.CollectedDoc)
    (hunchanged : ∀ d ∈ docs, ∃ stored,
      existing.lookup d.source = some stored ∧ d.mtime ≤ stored) :
    IndexDir.cli_index_add_calls existing docs = 0 := by
  have hfil : IndexDir.cliFilter existing docs = [] := by
    simp only [IndexDir.cliFilter]
    rw [List.filter_eq_nil_iff]
    intro d hd
    obtain ⟨stored, hlook, hle⟩ := hunchanged d hd
    rw [hlook]
    simp only [decide_eq_true_eq]
    intro hlt
    have hmono : IndexDir.round6 d.mtime ≤ IndexDir.round6 stored := by
      unfold IndexDir.round6
      have h1 : d.mtime * 1000000 + 1 / 2 ≤ stored * 1000000 + 1 / 2 := by
        have := mul_le_mul_of_nonneg_right hle (by norm_num : (0 : ℚ) ≤ 1000000)
        linarith
      have h2 : (⌊d.mtime * 1000000 + 1 / 2⌋ : ℤ) ≤ ⌊stored * 1000000 + 1 / 2⌋ :=
        Int.floor_le_floor h1
      have h3 : ((⌊d.mtime * 1000000 + 1 / 2⌋ : ℤ) : ℚ)
          ≤ ((⌊stored * 1000000 + 1 / 2⌋ : ℤ) : ℚ) := by exact_mod_cast h2
      exact (div_le_div_iff_of_pos_right (by norm_num : (0 : ℚ) < 1000000)).mpr h3
    exact absurd hlt (not_lt.mpr hmono)
  simp [IndexDir.cli_index_add_calls, hfil]

/-- Witness for the amended C2: one collected document whose source is
stored with an unchanged mtime leads to zero add calls. -/
theorem IndexDir.claim_C2_amended_witness :
    IndexDir.cli_index_add_calls [("/docs/a.txt", (17 : ℚ))]
      [⟨"/docs/a.txt", (17 : ℚ)⟩] = 0 :=
  IndexDir.claim_C2_amended [("/docs/a.txt", (17 : ℚ))]
    [⟨"/docs/a.txt", (17 : ℚ)⟩]
    (by
      intro d hd
      rw [List.mem_singleton] at hd
      subst hd
      exact ⟨17, rfl, le_refl _⟩)

/-! ## The file watcher (claims C6, C7, C10)

Embeds `IndexEventHandler.on_deleted` (src/gptme_rag/indexing/watcher.py,
lines 48-52), `_should_skip_file` / `_process_single_update` /
`_process_updates` (lines 134-229), and `FileWatcher.start` (lines 258-296).
Glob matching (`Path.match`) is an opaque function parameter. -/

namespace Watcher

/-- An indexer/store action the watcher can issue. -/
inductive Action where
  | log (msg : String)
  | deleteWhere (source : String)
deriving DecidableEq, Repr

/-- A filesystem event as watchdog delivers it. -/
structure FsEvent where
  src_path : String
  is_directory : Bool
deriving DecidableEq, Repr

/-- `_should_process`: the path glob-matches the pattern and matches no
ignore pattern. -/
def should_process (matchGlob : String → String → Bool) (pattern : String)
    (ignore_patterns : List String) (path : String) : Bool :=
  matchGlob path pattern
    && !(ignore_patterns.any (fun ig => matchGlob path ig))

/-- `on_deleted`: for an admitted non-directory deletion event the handler
only writes a log line (the indexer-side removal is a TODO in the source);
the returned list is every action it issues. -/
def on_deleted (matchGlob : String → String → Bool) (pattern : String)
    (ignore_patterns : List String) (event : FsEvent) : List Action :=
  if !event.is_directory
      && should_process matchGlob pattern ignore_patterns event.src_path then
    [Action.log ("File deleted: " ++ event.src_path)]
  else []

/-- Whether an action deletes records by source metadata. -/
def Action.isDeleteWhere : Action → Bool
  | Action.deleteWhere _ => true
  | _ => false

end Watcher

/-- C6 (code bug evidence): on an admitted deletion event the handler emits
only a log line, and `on_deleted` never issues a delete-by-source action for
any event whatsoever — the best-effort delete the spec requires is absent
(the source marks it TODO). -/
theorem Watcher.claim_C6_deleted_is_noop :
    (Watcher.on_deleted (fun _ pat => pat == "**/*.*") "**/*.*"
        [".git", "__pycache__", "*.pyc"] ⟨"/watch/test.txt", false⟩
      = [Watcher.Action.log "File deleted: /watch/test.txt"])
    ∧ ∀ (matchGlob : String → String → Bool) (pattern : String)
        (ignore_patterns : List String) (e : Watcher.FsEvent),
        (Watcher.on_deleted matchGlob pattern ignore_patterns e).all
          (fun a => !(Watcher.Action.isDeleteWhere a)) = true := by
  constructor
  · rfl
  · intro matchGlob pattern ignore_patterns e
    unfold Watcher.on_deleted
    split <;> simp [Watcher.Action.isDeleteWhere]

namespace Watcher

/-- A pending path as `_process_updates` observes it: the raw path string
(the identity in the pending set), the canonical resolved path, the stat
mtime, whether the path exists and is a regular file, whether its suffix is
one of the always-skipped binary/database suffixes, and whether
`_update_index_with_retries` would succeed (index plus verification). -/
structure WPath where
  raw : String
  canonical : String
  mtime : Int
  on_disk : Bool
  is_file : Bool
  skip_suffix : Bool
  update_ok : Bool
deriving DecidableEq, Repr

/-- `_should_skip_file`: already processed this batch, not a regular file,
or a skipped suffix. -/
def should_skip_file (p : WPath) (processed_paths : List String) : Bool :=
  processed_paths.contains p.canonical || !p.is_file || p.skip_suffix

/-- Stable insertion for descending-mtime order (Python sorted with
reverse=True): p goes after every element of no smaller mtime. -/
def insertByMtimeDesc (p : WPath) : List WPath → List WPath
  | [] => [p]
  | x :: xs =>
    if p.mtime ≤ x.mtime then x :: insertByMtimeDesc p xs else p :: x :: xs

/-- `sorted(existing_updates, key=mtime, reverse=True)`. -/
def sortByMtimeDesc (l : List WPath) : List WPath :=
  l.foldl (fun acc p => insertByMtimeDesc p acc) []

/-- `_process_single_update`: skip check, then (when the file still exists)
read and update, recording the canonical path as processed only when the
update succeeds verification. Returns the updated processed set and the
processed path, if any. -/
def process_single_update (p : WPath) (processed_paths : List String) :
    List String × Option WPath :=
  if should_skip_file p processed_paths then (processed_paths, none)
  else if p.on_disk then
    (if p.update_ok then p.canonical :: processed_paths else processed_paths,
     some p)
  else (processed_paths, none)

/-- The processing loop of `_process_updates`: the paths actually processed,
in order. -/
def processLoop : List WPath → List String → List WPath
  | [], _ => []
  | p :: rest, processed =>
    match process_single_update p processed with
    | (processed', none) => processLoop rest processed'
    | (processed', some q) => q :: processLoop rest processed'

/-- `_process_updates`: keep the pending paths that still exist, sort them
newest-mtime-first, and process them with a per-batch processed set. -/
def process_updates (pending : List WPath) : List WPath :=
  let existing := pending.filter (fun p => p.on_disk)
  if existing.isEmpty then []
  else processLoop (sortByMtimeDesc existing) []

theorem insertByMtimeDesc_sorted (p : WPath) (l : List WPath)
    (hl : List.Pairwise (fun a b => b.mtime ≤ a.mtime) l) :
    List.Pairwise (fun a b => b.mtime ≤ a.mtime) (insertByMtimeDesc p l) := by
  induction l with
  | nil => simp [insertByMtimeDesc]
  | cons x xs ih =>
    obtain ⟨hx, hxs⟩ := List.pairwise_cons.mp hl
    simp only [insertByMtimeDesc]
    by_cases h : p.mtime ≤ x.mtime
    · simp only [h, if_true]
      refine List.pairwise_cons.mpr ⟨?_, ih hxs⟩
      intro y hy
      have hperm : (insertByMtimeDesc p xs).Perm (p :: xs) := by
        clear hl hx hxs ih hy
        induction xs with
        | nil => simp [insertByMtimeDesc]
        | cons z zs ihz =>
          simp only [insertByMtimeDesc]
          by_cases hz : p.mtime ≤ z.mtime
          · simp only [hz, if_true]
            exact (ihz.cons z).trans (List.Perm.swap p z zs)
          · simp [hz]
      rcases List.mem_cons.mp (hperm.mem_iff.mp hy) with hy' | hy'
      · subst hy'; exact h
      · exact hx y hy'
    · simp only [h, if_false]
      refine List.pairwise_cons.mpr ⟨?_, hl⟩
      intro y hy
      rcases List.mem_cons.mp hy with hy' | hy'
      · subst hy'; exact le_of_not_le h
      · exact le_trans (hx y hy') (le_of_not_le h)

theorem sortByMtimeDesc_sorted (l : List WPath) :
    List.Pairwise (fun a b => b.mtime ≤ a.mtime) (sortByMtimeDesc l) := by
  suffices h : ∀ (l acc : List WPath),
      List.Pairwise (fun a b => b.mtime ≤ a.mtime) acc →
      List.Pairwise (fun a b => b.mtime ≤ a.mtime)
        (l.foldl (fun acc p => insertByMtimeDesc p acc) acc) from
    h l [] (by simp)
  intro l
  induction l with
  | nil => intro acc hacc; simpa using hacc
  | cons p t ih =>
    intro acc hacc
    simp only [List.foldl_cons]
    exact ih (insertByMtimeDesc p acc) (insertByMtimeDesc_sorted p acc hacc)

theorem processLoop_sublist : ∀ (l : List WPath) (processed : List String),
    (processLoop l processed).Sublist l := by
  intro l
  induction l with
  | nil => intro processed; simp [processLoop]
  | cons p rest ih =>
    intro processed
    simp only [processLoop]
    cases hps : process_single_update p processed with
    | mk processed' q =>
      cases q with
      | none => exact (ih processed').cons p
      | some r =>
        have hr : r = p := by
          simp only [process_single_update] at hps
          by_cases h1 : should_skip_file p processed = true
          · simp [h1] at hps
          · simp only [h1, if_false] at hps
            by_cases h2 : p.on_disk = true
            · simp [h2] at hps
              exact hps.2.symm
            · simp [h2] at hps
        subst hr
        exact (ih processed').cons₂ r

theorem processLoop_distinct_canonical :
    ∀ (l : List WPath) (processed : List String),
    (∀ p ∈ l, p.update_ok = true) →
    List.Pairwise (fun a b => a.canonical ≠ b.canonical) (processLoop l processed)
    ∧ ∀ q ∈ processLoop l processed, processed.contains q.canonical = false := by
  intro l
  induction l with
  | nil => intro processed _; simp [processLoop]
  | cons p rest ih =>
    intro processed hok
    have hokrest : ∀ x ∈ rest, x.update_ok = true :=
      fun x hx => hok x (List.mem_cons_of_mem p hx)
    simp only [processLoop]
    cases hskip : should_skip_file p processed with
    | true =>
      have hps : process_single_update p processed = (processed, none) := by
        simp [process_single_update, hskip]
      rw [hps]
      exact ih processed hokrest
    | false =>
      cases hdisk : p.on_disk with
      | false =>
        have hps : process_single_update p processed = (processed, none) := by
          simp [process_single_update, hskip, hdisk]
        rw [hps]
        exact ih processed hokrest
      | true =>
        have hpok : p.update_ok = true := hok p (List.mem_cons_self p rest)
        have hps : process_single_update p processed
            = (p.canonical :: processed, some p) := by
          simp [process_single_update, hskip, hdisk, hpok]
        rw [hps]
        obtain ⟨hpw, hcontains⟩ := ih (p.canonical :: processed) hokrest
        have hnotproc : processed.contains p.canonical = false := by
          simp only [should_skip_file, Bool.or_eq_false_iff] at hskip
          exact hskip.1.1
        constructor
        · refine List.pairwise_cons.mpr ⟨?_, hpw⟩
          intro q hq
          have := hcontains q hq
          simp only [List.contains_cons, Bool.or_eq_false_iff] at this
          intro heq
          rw [heq] at this
          simp at this
        · intro q hq
          rcases List.mem_cons.mp hq with hq' | hq'
          · subst hq'; exact hnotproc
          · have := hcontains q hq'
            simp only [List.contains_cons, Bool.or_eq_false_iff] at this
            exact this.2

/-- Two pending aliases of the same canonical path, both failing
verification. -/
def alias1 : WPath := ⟨"/w/doc.txt", "/real/doc.txt", 2, true, true, false, false⟩

/-- The second pending alias (older mtime, same canonical path). -/
def alias2 : WPath := ⟨"/w/./doc.txt", "/real/doc.txt", 1, true, true, false, false⟩

end Watcher

/-- C7 counterexample: when an update fails verification, its canonical path
is not recorded as processed, so a second pending alias of the same file is
processed again in the same debounce batch — both aliases are processed even
though they share a canonical path. -/
theorem Watcher.claim_C7_counterexample :
    Watcher.process_updates [Watcher.alias1, Watcher.alias2]
        = [Watcher.alias1, Watcher.alias2]
    ∧ Watcher.alias1.canonical = Watcher.alias2.canonical
    ∧ Watcher.alias1 ≠ Watcher.alias2
    ∧ ¬ List.Pairwise (fun a b => a.canonical ≠ b.canonical)
        (Watcher.process_updates [Watcher.alias1, Watcher.alias2]) := by
  refine ⟨by rfl, by rfl, by decide, ?_⟩
  intro hpw
  rw [show Watcher.process_updates [Watcher.alias1, Watcher.alias2]
      = [Watcher.alias1, Watcher.alias2] from rfl] at hpw
  have := (List.pairwise_cons.mp hpw).1 Watcher.alias2 (by simp)
  exact this rfl

/-- C7 amended: pending paths are processed in non-increasing mtime order
(newest first); and provided every processed update succeeds verification,
each canonical path is processed at most once per debounce batch — a path
whose update fails may be processed again through a distinct pending alias
of the same file. -/
theorem Watcher.claim_C7_amended (pending : List Watcher.WPath) :
    List.Pairwise (fun a b => b.mtime ≤ a.mtime)
      (Watcher.process_updates pending)
    ∧ ((∀ p ∈ pending, p.update_ok = true) →
        List.Pairwise (fun a b => a.canonical ≠ b.canonical)
          (Watcher.process_updates pending)) := by
  have hequ : Watcher.process_updates pending
      = if (pending.filter (fun p => p.on_disk)).isEmpty = true then []
        else Watcher.processLoop
          (Watcher.sortByMtimeDesc (pending.filter (fun p => p.on_disk))) [] := rfl
  constructor
  · rw [hequ]
    split
    · simp
    · exact ((Watcher.sortByMtimeDesc_sorted _).sublist
        (Watcher.processLoop_sublist _ []))
  · intro hok
    rw [hequ]
    split
    · simp
    · apply (Watcher.processLoop_distinct_canonical _ [] ?_).1
      intro p hp
      have hmem : p ∈ pending.filter (fun p => p.on_disk) := by
        have hperm : (Watcher.sortByMtimeDesc
            (pending.filter (fun p => p.on_disk))).Perm
            (pending.filter (fun p => p.on_disk)) := by
          clear hp
          generalize pending.filter (fun p => p.on_disk) = l
          suffices h : ∀ (l acc : List Watcher.WPath),
              (l.foldl (fun acc p => Watcher.insertByMtimeDesc p acc) acc).Perm
                (acc ++ l) by
            simpa using h l []
          intro l
          induction l with
          | nil => intro acc; simp
          | cons x t iht =>
            intro acc
            simp only [List.foldl_cons]
            refine (iht (Watcher.insertByMtimeDesc x acc)).trans ?_
            have hins : (Watcher.insertByMtimeDesc x acc).Perm (x :: acc) := by
              clear iht
              induction acc with
              | nil => simp [Watcher.insertByMtimeDesc]
              | cons z zs ihz =>
                simp only [Watcher.insertByMtimeDesc]
                by_cases hz : x.mtime ≤ z.mtime
                · simp only [hz, if_true]
                  exact (ihz.cons z).trans (List.Perm.swap x z zs)
                · simp [hz]
            refine (hins.append_right t).trans ?_
            simp only [List.cons_append]
            exact List.perm_middle.symm
        exact hperm.mem_iff.mp hp
      exact hok p (List.mem_of_mem_filter hmem)

/-- Witness for the amended C7: two distinct successfully-updating paths are
processed newest-first with distinct canonical paths. -/
theorem Watcher.claim_C7_amended_witness :
    List.Pairwise (fun a b => b.mtime ≤ a.mtime)
      (Watcher.process_updates
        [⟨"/w/a.txt", "/w/a.txt", 1, true, true, false, true⟩,
         ⟨"/w/b.txt", "/w/b.txt", 2, true, true, false, true⟩])
    ∧ ((∀ p ∈ [(⟨"/w/a.txt", "/w/a.txt", 1, true, true, false, true⟩ : Watcher.WPath),
          ⟨"/w/b.txt", "/w/b.txt", 2, true, true, false, true⟩], p.update_ok = true) →
        List.Pairwise (fun a b => a.canonical ≠ b.canonical)
          (Watcher.process_updates
            [⟨"/w/a.txt", "/w/a.txt", 1, true, true, false, true⟩,
             ⟨"/w/b.txt", "/w/b.txt", 2, true, true, false, true⟩])) :=
  Watcher.claim_C7_amended
    [⟨"/w/a.txt", "/w/a.txt", 1, true, true, false, true⟩,
     ⟨"/w/b.txt", "/w/b.txt", 2, true, true, false, true⟩]

namespace Watcher

/-- A stored index record: its id and source path. -/
structure DocRec where
  id : String
  source : String
deriving DecidableEq, Repr

/-- A watched directory: its path, whether it exists on disk, and the
records that indexing it adds (each sourced under the directory). -/
structure WatchDir where
  path : String
  dir_on_disk : Bool
  docs : List DocRec
deriving DecidableEq, Repr

/-- Modelled from the spec: Indexer.reset_collection — the method called by
FileWatcher.start is not in the source snapshot (only its callers and tests
are); per the VectorCollection contract (spec §6, reset()) it empties the
collection. -/
def reset_collection (_c : List DocRec) : List DocRec := []

/-- `FileWatcher.start`: reset the collection once, then index every watched
path that exists. Errors while indexing one path are logged and the loop
continues; observer scheduling does not touch the collection. -/
def start (paths : List WatchDir) (c : List DocRec) : List DocRec :=
  paths.foldl
    (fun acc wd => if wd.dir_on_disk then acc ++ wd.docs else acc)
    (reset_collection c)

theorem start_foldl_mem : ∀ (paths : List WatchDir) (acc : List DocRec)
    (d : DocRec),
    d ∈ paths.foldl
        (fun acc wd => if wd.dir_on_disk then acc ++ wd.docs else acc) acc →
    d ∈ acc ∨ ∃ wd ∈ paths, wd.dir_on_disk = true ∧ d ∈ wd.docs := by
  intro paths
  induction paths with
  | nil => intro acc d hd; exact Or.inl hd
  | cons wd rest ih =>
    intro acc d hd
    simp only [List.foldl_cons] at hd
    rcases ih _ d hd with hacc | ⟨wd', hwd', hdisk, hdocs⟩
    · by_cases hdisk : wd.dir_on_disk = true
      · rw [hdisk] at hacc
        simp only [if_true] at hacc
        rcases List.mem_append.mp hacc with h | h
        · exact Or.inl h
        · exact Or.inr ⟨wd, List.mem_cons_self wd rest, hdisk, h⟩
      · rw [Bool.not_eq_true] at hdisk
        rw [hdisk] at hacc
        simp only [Bool.false_eq_true, if_false] at hacc
        exact Or.inl hacc
    · exact Or.inr ⟨wd', List.mem_cons_of_mem wd hwd', hdisk, hdocs⟩

end Watcher

/-- C10: FileWatcher.start resets the collection before the initial indexing
pass: its result does not depend on the previously persisted collection at
all, and every record present after start comes from indexing one of the
watched paths — so any document persisted by an earlier session, watched
directory or not, is gone. -/
theorem Watcher.claim_C10_start_resets (paths : List Watcher.WatchDir)
    (c₁ c₂ : List Watcher.DocRec) :
    Watcher.start paths c₁ = Watcher.start paths c₂
    ∧ ∀ d ∈ Watcher.start paths c₁,
        ∃ wd ∈ paths, wd.dir_on_disk = true ∧ d ∈ wd.docs := by
  constructor
  · rfl
  · intro d hd
    rcases Watcher.start_foldl_mem paths (Watcher.reset_collection c₁) d hd with
      h | h
    · simp [Watcher.reset_collection] at h
    · exact h

end GptmeRag
